import Mathlib

/-!
Shallow embedding of the `jjneely/journal` fixed-interval time-series
journal (Go) and proofs about it.

Modelling conventions:
* Go `int64` / `int32` header fields and timestamps are modelled as `Int`;
  where the Go code converts through unsigned types for serialization the
  wrap-around is made explicit with `% 2^64` / `% 2^32`.
* Go `/` and `%` on integers truncate toward zero; they are modelled by
  `Int.tdiv` and `Int.tmod`.
* A byte is a `Nat` (values kept below 256 by the encoders); a file is a
  `List Nat`.  `os.File.WriteAt` is modelled by `writeAt` below.
* Fallible operations return `Except Err _`; Go runtime panics (integer
  division by zero, `GetValueType` on an unregistered tag) are modelled by
  dedicated error values so that the functions stay total.
-/

deriving instance DecidableEq for Except

namespace Journal

/-- Little-endian encoding of a natural number into exactly `k` bytes
(the byte-level behaviour of `binary.Write`/`PutUint64` in the Go code). -/
def encodeLE (n : Nat) : Nat → List Nat
  | 0 => []
  | k + 1 => (n % 256) :: encodeLE (n / 256) k

/-- Little-endian decoding of a byte list into a natural number
(the byte-level behaviour of `binary.Read` in the Go code). -/
def decodeLE : List Nat → Nat
  | [] => 0
  | b :: rest => b + 256 * decodeLE rest

/-- 8-byte little-endian two's-complement encoding of a Go `int64`
(`binary.LittleEndian.PutUint64(buf, uint64(v))`). -/
def int64LE (v : Int) : List Nat :=
  encodeLE ((v % 2 ^ 64).toNat) 8

/-- 4-byte little-endian two's-complement encoding of a Go `int32`. -/
def int32LE (v : Int) : List Nat :=
  encodeLE ((v % 2 ^ 32).toNat) 4

/-- Decode 8 little-endian bytes as a signed two's-complement `int64`. -/
def decodeInt64 (bs : List Nat) : Int :=
  let n := decodeLE bs
  if n < 2 ^ 63 then (n : Int) else (n : Int) - 2 ^ 64

/-- Decode 4 little-endian bytes as a signed two's-complement `int32`. -/
def decodeInt32 (bs : List Nat) : Int :=
  let n := decodeLE bs
  if n < 2 ^ 31 then (n : Int) else (n : Int) - 2 ^ 32

/-!  Codecs (value types).  `ByteValues.Encode`, `ByteValueType.Decode`,
`Int64Values.Encode`, `Int64ValueType.Decode`, `Float64Values.Encode`,
`Float64ValueType.Decode` from the Go source.  A Go `float64` is modelled
by its 64-bit IEEE-754 bit pattern (a `Nat < 2^64`): the codec only moves
the bytes of that pattern, little-endian. -/

/-- `ByteValues.Encode`: concatenate the byte groups. -/
def byteEncode (v : List (List Nat)) : List Nat := v.flatten

/-- `ByteValueType.Decode`: split a buffer into `width`-byte groups,
stepping `i` by `width` while `i < len(buffer)` and taking
`buffer[i : i+width]`.  Go panics when fewer than `width` bytes remain
(slice out of range) and loops forever when `width = 0` on a non-empty
buffer; both are modelled by `none`. -/
def byteDecode (w : Nat) (buf : List Nat) : Option (List (List Nat)) :=
  if hb : buf = [] then some []
  else if h : 0 < w ∧ w ≤ buf.length then
    (byteDecode w (buf.drop w)).map (fun l => buf.take w :: l)
  else none
termination_by buf.length
decreasing_by
  simp only [List.length_drop]
  have : 0 < buf.length := List.length_pos.mpr hb
  omega

/-- `Int64Values.Encode`: little-endian concatenation of the values. -/
def int64Encode (v : List Int) : List Nat := (v.map int64LE).flatten

/-- `Int64ValueType.Decode`: `make([]int64, len(buffer)/8)` then
`binary.Read`, i.e. decode consecutive 8-byte groups; trailing bytes
beyond a multiple of 8 are ignored. -/
def int64Decode (buf : List Nat) : List Int :=
  if h : 8 ≤ buf.length then
    decodeInt64 (buf.take 8) :: int64Decode (buf.drop 8)
  else []
termination_by buf.length
decreasing_by simp only [List.length_drop]; omega

/-- `Float64Values.Encode` at the bit-pattern level: little-endian
concatenation of the 64-bit patterns. -/
def float64Encode (v : List Nat) : List Nat :=
  (v.map (fun x => encodeLE x 8)).flatten

/-- `Float64ValueType.Decode` at the bit-pattern level:
`make([]float64, len(buffer)/8)` then `binary.Read`, i.e. decode
consecutive 8-byte groups; trailing bytes beyond a multiple of 8 are
ignored. -/
def float64Decode (buf : List Nat) : List Nat :=
  if h : 8 ≤ buf.length then
    decodeLE (buf.take 8) :: float64Decode (buf.drop 8)
  else []
termination_by buf.length
decreasing_by simp only [List.length_drop]; omega

/-- What the journal engine consumes from a codec (`ValueType` in Go):
the on-disk type tag, the sample width and the null sentinel. -/
structure ValueTypeModel where
  typeTag : Int
  width : Int
  null : List Nat
deriving DecidableEq, Repr

/-- What the journal engine consumes from a `Values` argument:
`Values.Encode()` and `Values.Len()`. -/
structure EncodedValues where
  enc : List Nat
  len : Nat
deriving DecidableEq, Repr

/-- View a list of int64 samples as the `Values` argument of `Write`. -/
def int64Values (v : List Int) : EncodedValues :=
  { enc := int64Encode v, len := v.length }

/-- ASCII bytes of `"NULL"`. -/
def nullWord : List Nat := [0x4E, 0x55, 0x4C, 0x4C]

/-- `ByteValueType.Type()`: all-zero null ⇒ `0x01`; null starting with
ASCII `NULL` ⇒ `0x00`; otherwise `0x0F`. -/
def byteTypeTag (null : List Nat) : Int :=
  if null = List.replicate null.length 0 then 0x01
  else if null.take 4 = nullWord ∧ 4 ≤ null.length then 0x00
  else 0x0F

/-- `NewByteValueType(width, null)`: pad the user null with zero bytes up
to `width`, then truncate to `width`.  (Only meaningful for `width ≥ 0`;
Go would panic on a negative width.) -/
def newByteValueType (w : Nat) (null : List Nat) : ValueTypeModel :=
  let padded := (null ++ List.replicate (w - null.length) 0).take w
  { typeTag := byteTypeTag padded, width := (w : Int), null := padded }

/-- Little-endian bytes of the Go `math.NaN()` bit pattern
(`0x7FF8000000000001`). -/
def nanBytes : List Nat := encodeLE 0x7FF8000000000001 8

/-- The `Float64ValueType` codec.  Its `Width()` is 8 and its `Null()` is
the NaN bit pattern; the Go file in this revision does not define a
`Type()` method, the tag `0x10` is the registry value (`GetValueType`). -/
def float64VT : ValueTypeModel :=
  { typeTag := 0x10, width := 8, null := nanBytes }

/-- The `Int64ValueType` codec: tag `0x11`, width 8, null = little-endian
`math.MinInt64`. -/
def int64VT : ValueTypeModel :=
  { typeTag := 0x11, width := 8, null := int64LE (-(2 ^ 63)) }

/-- `GetValueType(t, w)`: the codec registry consulted by `Open`.
Unknown tags make the Go code panic (modelled by `none`), and the
byte-blob arms panic on a negative width (also `none`).  For tags `0x00`
and `0x0F` the null is `"NULL"` extended with spaces beyond 4 bytes, cut
to `w`; for `0x01` it is `w` zero bytes. -/
def getValueType (t w : Int) : Option ValueTypeModel :=
  if t = 0x00 ∨ t = 0x0F then
    if 0 ≤ w then
      some (newByteValueType w.toNat
        ((nullWord ++ List.replicate (w.toNat - 4) 0x20).take w.toNat))
    else none
  else if t = 0x01 then
    if 0 ≤ w then some (newByteValueType w.toNat (List.replicate w.toNat 0))
    else none
  else if t = 0x10 then some float64VT
  else if t = 0x11 then some int64VT
  else none

/-!  File model.  A file is a byte list; `writeAt` models
`os.File.WriteAt` on it.  Go's `WriteAt` first rejects a negative offset
("negative offset" `PathError`, checked in `os` before any syscall); a
write on a descriptor not opened for writing fails in the kernel with
`EBADF`; otherwise `pwrite` overwrites bytes at the offset, zero-filling
any gap past the old end of file. -/

inductive OsErr where
  | negativeOffset : OsErr
  | notWritable : OsErr
deriving DecidableEq, Repr

inductive Err where
  | os : OsErr → Err
  | timestampBeforeEpoch : Err
  | metaTooLong : Err
  | headerRead : Err
  | notAJournal : Err
  | corrupt : Err
  | panicUnknownType : Err
  | panicDivByZero : Err
deriving DecidableEq, Repr

/-- `file` extended with zero bytes up to length `n` (sparse-file
zero-fill; a no-op when the file is already that long). -/
def padTo (file : List Nat) (n : Nat) : List Nat :=
  file ++ List.replicate (n - file.length) 0

/-- Overwrite `buf` into `file` starting at byte offset `off`,
zero-filling between the old end of file and `off` if needed. -/
def overwriteAt (file : List Nat) (off : Nat) (buf : List Nat) : List Nat :=
  (padTo file off).take off ++ buf ++ (padTo file off).drop (off + buf.length)

/-- Model of `fd.WriteAt(buf, off)`. -/
def writeAt (writable : Bool) (file : List Nat) (buf : List Nat) (off : Int) :
    Except OsErr (List Nat) :=
  if off < 0 then .error .negativeOffset
  else if writable then .ok (overwriteAt file off.toNat buf)
  else .error .notWritable

/-- The `n`-byte slice of `file` starting at offset `off`. -/
def sliceAt (file : List Nat) (off n : Nat) : List Nat :=
  (file.drop off).take n

/-- The gap-fill loop of `Write`: append the codec null `g` times. -/
def repNull (g : Nat) (null : List Nat) : List Nat :=
  match g with
  | 0 => []
  | g + 1 => null ++ repNull g null

/-!  Header.  `FileHeader` with its `binary.Write`/`binary.Read`
little-endian serialization; 64 bytes on disk. -/

def magicBytes : List Nat := [0x42, 0x4A, 0x54, 0x53]

structure FileHeader where
  magic : List Nat
  version : Int
  typeTag : Int
  width : Int
  interval : Int
  meta : List Int
  epoch : Int
deriving DecidableEq, Repr

/-- `binary.Write(fd, binary.LittleEndian, j.header)`: the 64-byte
little-endian image of the header. -/
def serializeHeader (h : FileHeader) : List Nat :=
  h.magic ++ (int32LE h.version ++ (int32LE h.typeTag ++ (int32LE h.width ++
    (int64LE h.interval ++ ((h.meta.map int64LE).flatten ++ int64LE h.epoch)))))

/-- `binary.Read(fd, binary.LittleEndian, &header)` applied to the first
64 bytes of the file. -/
def parseHeader (b : List Nat) : FileHeader :=
  { magic := b.take 4
    version := decodeInt32 (sliceAt b 4 4)
    typeTag := decodeInt32 (sliceAt b 8 4)
    width := decodeInt32 (sliceAt b 12 4)
    interval := decodeInt64 (sliceAt b 16 8)
    meta := [decodeInt64 (sliceAt b 24 8), decodeInt64 (sliceAt b 32 8),
             decodeInt64 (sliceAt b 40 8), decodeInt64 (sliceAt b 48 8)]
    epoch := decodeInt64 (sliceAt b 56 8) }

/-!  Journal engine: `FileJournal`, `adjust`, `Write`, `Create`, `Open`,
`Last`. -/

structure FileJournal where
  header : FileHeader
  readonly : Bool
  points : Int
  factory : ValueTypeModel
deriving DecidableEq, Repr

/-- `adjust(timestamp, interval)`: align down to the interval grid with
Go's truncated `%`. -/
def adjust (timestamp interval : Int) : Int :=
  timestamp - timestamp.tmod interval

/-- `FileJournal.Write`.  The journal file is threaded explicitly; the
result is the updated in-memory journal and file.  Go panics when
`interval == 0` (`%` by zero in `adjust`); the final `else` arm is the
source's "Time stamp is before journal epoch" error return. -/
def write (ts : FileJournal) (file : List Nat) (timestamp : Int)
    (values : EncodedValues) : Except Err (FileJournal × List Nat) :=
  if ts.header.interval = 0 then .error .panicDivByZero
  else
    let t := adjust timestamp ts.header.interval
    let seekPoint := (t - ts.header.epoch).tdiv ts.header.interval
    let branch : Except Err (Int × List Nat × Int) :=
      if ts.header.epoch = 0 then
        -- First write, we must write the epoch
        .ok (values.len, int64LE t, 64 - 8)
      else if seekPoint ≤ ts.points then
        -- a "normal" write
        .ok (if (values.len : Int) < ts.points - seekPoint then 0
             else (values.len : Int) - (ts.points - seekPoint),
          [], 64 + seekPoint * ts.header.width)
      else if seekPoint > ts.points then
        -- a "gap" write
        .ok ((values.len : Int) + (seekPoint - ts.points),
          repNull (seekPoint - ts.points).toNat ts.factory.null,
          64 + ts.points * ts.header.width)
      else
        -- XXX: Timestamp is before journal epoch
        .error .timestampBeforeEpoch
    match branch with
    | .error e => .error e
    | .ok (addedPoints, buffer, seek) =>
        match writeAt (!ts.readonly) file (buffer ++ values.enc) seek with
        | .error e => .error (.os e)
        | .ok file2 =>
            .ok ({ ts with
                    points := ts.points + addedPoints
                    header := { ts.header with
                      epoch := if ts.header.epoch = 0 then t
                               else ts.header.epoch } }, file2)

/-- `Create` (directory handling, file creation and locking are outside
the model): reject more than 4 metadata values, build the header with
`epoch = 0` and zero-padded metadata, write it out; the new journal is
read-write with zero points. -/
def create (interval : Int) (factory : ValueTypeModel) (meta : List Int) :
    Except Err (FileJournal × List Nat) :=
  if meta.length > 4 then .error .metaTooLong
  else
    let h : FileHeader :=
      { magic := magicBytes
        version := 0
        typeTag := factory.typeTag
        width := factory.width
        interval := interval
        meta := (meta ++ List.replicate 4 0).take 4
        epoch := 0 }
    .ok ({ header := h, readonly := false, points := 0, factory := factory },
      serializeHeader h)

/-- `Open`.  `readonly` is the outcome of the read-write open attempt
(true when permissions forced the read-only fallback).  A file shorter
than the 64-byte header makes `binary.Read` fail; then the magic check;
then `GetValueType` (panic on unknown tags); then the size residue check
(Go panics on `% 0` when the header width is zero). -/
def openJournal (file : List Nat) (readonly : Bool) :
    Except Err FileJournal :=
  if file.length < 64 then .error .headerRead
  else
    let h := parseHeader (file.take 64)
    if h.magic ≠ magicBytes then .error .notAJournal
    else
      match getValueType h.typeTag h.width with
      | none => .error .panicUnknownType
      | some factory =>
          if h.width = 0 then .error .panicDivByZero
          else if ((file.length : Int) - 64).tmod h.width ≠ 0 then
            .error .corrupt
          else
            .ok { header := h, readonly := readonly,
                  points := ((file.length : Int) - 64).tdiv h.width,
                  factory := factory }

/-- The slot index `seekPoint = (t' − epoch) / interval` computed by
`Write` (Go truncated division). -/
def seekPt (j : FileJournal) (t : Int) : Int :=
  (adjust t j.header.interval - j.header.epoch).tdiv j.header.interval

/-- `FileJournal.Last`. -/
def last (ts : FileJournal) : Int :=
  ts.header.epoch + ts.header.interval * (ts.points - 1)

/-- A sequence of `Write` calls, stopping at the first error. -/
def runWrites (j : FileJournal) (file : List Nat)
    (ops : List (Int × EncodedValues)) : Except Err (FileJournal × List Nat) :=
  match ops with
  | [] => .ok (j, file)
  | (t, v) :: rest =>
      match write j file t v with
      | .error e => .error e
      | .ok (j2, f2) => runWrites j2 f2 rest

/-!  Concrete instances used by witnesses and counterexamples. -/

/-- The header produced by `Create("…", 60, Int64ValueType, [])`. -/
def hdrFresh : FileHeader :=
  { magic := magicBytes, version := 0, typeTag := 0x11, width := 8,
    interval := 60, meta := [0, 0, 0, 0], epoch := 0 }

/-- A freshly created int64 journal (interval 60, no metadata). -/
def jFresh : FileJournal :=
  { header := hdrFresh, readonly := false, points := 0, factory := int64VT }

def fFresh : List Nat := serializeHeader hdrFresh

/-- `hdrFresh` after the epoch has been stamped to 60. -/
def hdr60 : FileHeader := { hdrFresh with epoch := 60 }

/-- An int64 journal holding one point at epoch 60. -/
def j60 : FileJournal :=
  { header := hdr60, readonly := false, points := 1, factory := int64VT }

/-- The on-disk image matching `j60`: header plus one sample. -/
def f60 : List Nat := serializeHeader hdr60 ++ int64LE 7

/-- `j60` opened read-only. -/
def j60ro : FileJournal := { j60 with readonly := true }

/-- `j60` after a normal one-sample write at t = 120. -/
def j60b : FileJournal := { j60 with points := 2 }

/-- The on-disk image matching `j60b`. -/
def f60b : List Nat := f60 ++ int64LE 9

/-- `jFresh` after a first write at t = 125 (aligned to 120). -/
def jC6 : FileJournal :=
  { header := { hdrFresh with epoch := 120 }, readonly := false,
    points := 1, factory := int64VT }

/-- The on-disk image matching `jC6`. -/
def fC6 : List Nat := overwriteAt fFresh 56 (int64LE 120 ++ int64Encode [9])

/-!  General lemmas about the byte encodings and the file model. -/

theorem encodeLE_length (n k : Nat) : (encodeLE n k).length = k := by
  induction k generalizing n with
  | zero => rfl
  | succ k ih => simp [encodeLE, ih]

theorem decodeLE_encodeLE (k : Nat) (n : Nat) (h : n < 256 ^ k) :
    decodeLE (encodeLE n k) = n := by
  induction k generalizing n with
  | zero => simp at h; simp [encodeLE, decodeLE, h]
  | succ k ih =>
      have hlt : n / 256 < 256 ^ k := by
        rw [Nat.div_lt_iff_lt_mul (by norm_num : 0 < 256)]
        calc n < 256 ^ (k + 1) := h
        _ = 256 ^ k * 256 := by ring
      simp [encodeLE, decodeLE, ih _ hlt]
      omega

theorem decodeInt64_int64LE (v : Int) (h₁ : -(2 ^ 63) ≤ v) (h₂ : v < 2 ^ 63) :
    decodeInt64 (int64LE v) = v := by
  have hnn : (0 : Int) ≤ v % 2 ^ 64 := Int.emod_nonneg v (by norm_num)
  have hlt : v % 2 ^ 64 < 2 ^ 64 := Int.emod_lt_of_pos v (by norm_num)
  have hd : decodeLE (encodeLE ((v % 2 ^ 64).toNat) 8)
      = (v % 2 ^ 64).toNat := by
    apply decodeLE_encodeLE
    have : ((v % 2 ^ 64).toNat : Int) < 2 ^ 64 := by
      rwa [Int.toNat_of_nonneg hnn]
    exact_mod_cast this
  have hval : v % 2 ^ 64 = if 0 ≤ v then v else v + 2 ^ 64 := by
    split <;> omega
  unfold decodeInt64 int64LE
  simp only [hd]
  rw [Int.toNat_of_nonneg hnn] at *
  split at hval <;> omega

theorem decodeInt32_int32LE (v : Int) (h₁ : -(2 ^ 31) ≤ v) (h₂ : v < 2 ^ 31) :
    decodeInt32 (int32LE v) = v := by
  have hnn : (0 : Int) ≤ v % 2 ^ 32 := Int.emod_nonneg v (by norm_num)
  have hlt : v % 2 ^ 32 < 2 ^ 32 := Int.emod_lt_of_pos v (by norm_num)
  have hd : decodeLE (encodeLE ((v % 2 ^ 32).toNat) 4)
      = (v % 2 ^ 32).toNat := by
    apply decodeLE_encodeLE
    have : ((v % 2 ^ 32).toNat : Int) < 2 ^ 32 := by
      rwa [Int.toNat_of_nonneg hnn]
    exact_mod_cast this
  have hval : v % 2 ^ 32 = if 0 ≤ v then v else v + 2 ^ 32 := by
    split <;> omega
  unfold decodeInt32 int32LE
  simp only [hd]
  rw [Int.toNat_of_nonneg hnn] at *
  split at hval <;> omega

theorem byteDecode_byteEncode (w : Nat) (hw : 0 < w) (v : List (List Nat))
    (hv : ∀ e ∈ v, e.length = w) :
    byteDecode w (byteEncode v) = some v := by
  induction v with
  | nil => simp [byteEncode, byteDecode]
  | cons e rest ih =>
      have he : e.length = w := hv e (by simp)
      have hrest : ∀ x ∈ rest, x.length = w := fun x hx => hv x (by simp [hx])
      have hsplit : byteEncode (e :: rest) = e ++ byteEncode rest := by
        simp [byteEncode]
      have hne : e ++ byteEncode rest ≠ [] := by
        have : 0 < e.length := he ▸ hw
        cases e with
        | nil => simp at this
        | cons a as => simp
      rw [hsplit, byteDecode]
      have hlen : w ≤ (e ++ byteEncode rest).length := by
        simp [he]
      rw [dif_neg hne, dif_pos ⟨hw, hlen⟩]
      have hdrop : (e ++ byteEncode rest).drop w = byteEncode rest := by
        rw [← he]; exact List.drop_left e (byteEncode rest)
      have htake : (e ++ byteEncode rest).take w = e := by
        rw [← he]; exact List.take_left e (byteEncode rest)
      rw [hdrop, htake, ih hrest]
      rfl

theorem int64Decode_append8 (b rest : List Nat) (h : b.length = 8) :
    int64Decode (b ++ rest) = decodeInt64 b :: int64Decode rest := by
  rw [int64Decode]
  have hle : 8 ≤ (b ++ rest).length := by simp [h]
  rw [dif_pos hle]
  have htake : (b ++ rest).take 8 = b := by
    rw [← h]; exact List.take_left b rest
  have hdrop : (b ++ rest).drop 8 = rest := by
    rw [← h]; exact List.drop_left b rest
  rw [htake, hdrop]

theorem float64Decode_append8 (b rest : List Nat) (h : b.length = 8) :
    float64Decode (b ++ rest) = decodeLE b :: float64Decode rest := by
  rw [float64Decode]
  have hle : 8 ≤ (b ++ rest).length := by simp [h]
  rw [dif_pos hle]
  have htake : (b ++ rest).take 8 = b := by
    rw [← h]; exact List.take_left b rest
  have hdrop : (b ++ rest).drop 8 = rest := by
    rw [← h]; exact List.drop_left b rest
  rw [htake, hdrop]

theorem int64Decode_int64Encode (v : List Int)
    (hv : ∀ x ∈ v, -(2 ^ 63) ≤ x ∧ x < 2 ^ 63) :
    int64Decode (int64Encode v) = v := by
  induction v with
  | nil => rw [show int64Encode [] = [] from rfl, int64Decode]; simp
  | cons x rest ih =>
      have hx := hv x (by simp)
      have hrest : ∀ y ∈ rest, -(2 ^ 63) ≤ y ∧ y < 2 ^ 63 :=
        fun y hy => hv y (by simp [hy])
      have hsplit : int64Encode (x :: rest) = int64LE x ++ int64Encode rest := by
        simp [int64Encode]
      rw [hsplit, int64Decode_append8 (int64LE x) (int64Encode rest)
          (by rw [int64LE]; exact encodeLE_length _ 8),
        decodeInt64_int64LE x hx.1 hx.2, ih hrest]

theorem float64Decode_float64Encode (v : List Nat)
    (hv : ∀ x ∈ v, x < 2 ^ 64) :
    float64Decode (float64Encode v) = v := by
  induction v with
  | nil => rw [show float64Encode [] = [] from rfl, float64Decode]; simp
  | cons x rest ih =>
      have hx := hv x (by simp)
      have hrest : ∀ y ∈ rest, y < 2 ^ 64 := fun y hy => hv y (by simp [hy])
      have hsplit : float64Encode (x :: rest)
          = encodeLE x 8 ++ float64Encode rest := by
        simp [float64Encode]
      rw [hsplit, float64Decode_append8 (encodeLE x 8) (float64Encode rest)
          (encodeLE_length _ 8),
        decodeLE_encodeLE 8 x (by norm_num at hx ⊢; omega), ih hrest]

theorem repNull_length (g : Nat) (null : List Nat) :
    (repNull g null).length = g * null.length := by
  induction g with
  | zero => simp [repNull]
  | succ g ih => simp [repNull, ih]; ring

theorem padTo_of_le (file : List Nat) (n : Nat) (h : n ≤ file.length) :
    padTo file n = file := by
  simp [padTo, Nat.sub_eq_zero_of_le h]

theorem overwriteAt_append (file buf : List Nat) :
    overwriteAt file file.length buf = file ++ buf := by
  simp [overwriteAt, padTo_of_le file file.length le_rfl]

theorem overwriteAt_length (file buf : List Nat) (off : Nat) :
    (overwriteAt file off buf).length = max file.length (off + buf.length) := by
  simp only [overwriteAt, List.length_append, List.length_take, List.length_drop,
    padTo, List.length_replicate]
  omega

/-!  Evaluation lemmas: the value of `write` on each branch of the
source's if/else chain, plus failure lemmas. -/

theorem write_first_eval (j : FileJournal) (f : List Nat) (t : Int)
    (V : EncodedValues) (hint : j.header.interval ≠ 0)
    (hep : j.header.epoch = 0) (hro : j.readonly = false) :
    write j f t V = .ok ({ j with
        points := j.points + (V.len : Int)
        header := { j.header with epoch := adjust t j.header.interval } },
      overwriteAt f 56 (int64LE (adjust t j.header.interval) ++ V.enc)) := by
  simp only [write, writeAt, hep, hro, hint, if_true, if_false, ite_true,
    ite_false]
  norm_num
  rfl

theorem write_gap_eval (j : FileJournal) (f : List Nat) (t : Int)
    (V : EncodedValues) (hint : j.header.interval ≠ 0)
    (hep : j.header.epoch ≠ 0) (hro : j.readonly = false)
    (hk : j.points < seekPt j t)
    (hseek : 0 ≤ 64 + j.points * j.header.width) :
    write j f t V = .ok ({ j with
        points := j.points + ((V.len : Int) + (seekPt j t - j.points)) },
      overwriteAt f (64 + j.points * j.header.width).toNat
        (repNull (seekPt j t - j.points).toNat j.factory.null ++ V.enc)) := by
  have h1 : ¬(seekPt j t ≤ j.points) := not_le.mpr hk
  have h2 : ¬(64 + j.points * j.header.width < 0) := not_lt.mpr hseek
  simp only [seekPt] at h1 hk
  simp only [write, writeAt, hep, hro, hint, h1, hk, h2, if_true, if_false,
    ite_true, ite_false, Bool.not_false, if_neg, seekPt]

theorem write_normal_eval (j : FileJournal) (f : List Nat) (t : Int)
    (V : EncodedValues) (hint : j.header.interval ≠ 0)
    (hep : j.header.epoch ≠ 0) (hro : j.readonly = false)
    (hk : seekPt j t ≤ j.points)
    (hseek : 0 ≤ 64 + seekPt j t * j.header.width) :
    write j f t V = .ok ({ j with
        points := j.points + (if (V.len : Int) < j.points - seekPt j t then 0
          else (V.len : Int) - (j.points - seekPt j t)) },
      overwriteAt f (64 + seekPt j t * j.header.width).toNat V.enc) := by
  have h2 : ¬(64 + seekPt j t * j.header.width < 0) := not_lt.mpr hseek
  simp only [seekPt] at hk h2
  simp only [write, writeAt, hep, hro, hint, hk, h2, if_true, if_false,
    ite_true, ite_false, Bool.not_false, if_neg, seekPt]
  rfl

theorem writeAt_false_eq (f b : List Nat) (off : Int) :
    writeAt false f b off
      = .error (if off < 0 then .negativeOffset else .notWritable) := by
  rw [writeAt]; split <;> simp

theorem write_readonly_fails (j : FileJournal) (f : List Nat) (t : Int)
    (V : EncodedValues) (hro : j.readonly = true) :
    (write j f t V).isOk = false := by
  simp only [write, hro, Bool.not_true, writeAt_false_eq]
  repeat' split
  all_goals rfl

theorem write_normal_negseek (j : FileJournal) (f : List Nat) (t : Int)
    (V : EncodedValues) (hint : j.header.interval ≠ 0)
    (hep : j.header.epoch ≠ 0)
    (hk : seekPt j t ≤ j.points)
    (hseek : 64 + seekPt j t * j.header.width < 0) :
    write j f t V = .error (.os .negativeOffset) := by
  simp only [seekPt] at hk hseek
  simp only [write, writeAt, hep, hint, hk, hseek, if_true, if_false,
    ite_true, ite_false]

theorem write_gap_negseek (j : FileJournal) (f : List Nat) (t : Int)
    (V : EncodedValues) (hint : j.header.interval ≠ 0)
    (hep : j.header.epoch ≠ 0)
    (hk : j.points < seekPt j t)
    (hseek : 64 + j.points * j.header.width < 0) :
    write j f t V = .error (.os .negativeOffset) := by
  have h1 : ¬(seekPt j t ≤ j.points) := not_le.mpr hk
  simp only [seekPt] at h1 hk
  simp only [write, writeAt, hep, hint, h1, hk, hseek, if_true, if_false,
    ite_true, ite_false]

/-- Inverse characterization: what must have happened when `write`
returned successfully. -/
theorem write_ok_inv (j : FileJournal) (f : List Nat) (t : Int)
    (V : EncodedValues) (j2 : FileJournal) (f2 : List Nat)
    (hok : write j f t V = .ok (j2, f2)) :
    j.header.interval ≠ 0 ∧ j.readonly = false ∧
    j2.readonly = j.readonly ∧ j2.factory = j.factory ∧
    j2.header.width = j.header.width ∧
    j2.header.interval = j.header.interval ∧
    ((j.header.epoch = 0 ∧ j2.header.epoch = adjust t j.header.interval ∧
        j2.points = j.points + (V.len : Int) ∧
        f2 = overwriteAt f 56 (int64LE (adjust t j.header.interval) ++ V.enc)) ∨
      (j.header.epoch ≠ 0 ∧ j2.header.epoch = j.header.epoch ∧
        ((seekPt j t ≤ j.points ∧ 0 ≤ 64 + seekPt j t * j.header.width ∧
            j2.points = j.points +
              (if (V.len : Int) < j.points - seekPt j t then 0
                else (V.len : Int) - (j.points - seekPt j t)) ∧
            f2 = overwriteAt f (64 + seekPt j t * j.header.width).toNat
              V.enc) ∨
          (j.points < seekPt j t ∧ 0 ≤ 64 + j.points * j.header.width ∧
            j2.points = j.points +
              ((V.len : Int) + (seekPt j t - j.points)) ∧
            f2 = overwriteAt f (64 + j.points * j.header.width).toNat
              (repNull (seekPt j t - j.points).toNat j.factory.null ++
                V.enc))))) := by
  by_cases hro : j.readonly = true
  · have := write_readonly_fails j f t V hro
    rw [hok] at this
    simp [Except.isOk, Except.toBool] at this
  have hro2 : j.readonly = false := by
    cases hb : j.readonly
    · rfl
    · exact absurd hb hro
  by_cases hint : j.header.interval = 0
  · rw [write, if_pos hint] at hok
    exact absurd hok (by simp)
  by_cases hep : j.header.epoch = 0
  · rw [write_first_eval j f t V hint hep hro2] at hok
    simp only [Except.ok.injEq, Prod.mk.injEq] at hok
    obtain ⟨hj, hf⟩ := hok
    subst hj
    refine ⟨hint, hro2, rfl, rfl, rfl, rfl, Or.inl ⟨hep, rfl, rfl, hf.symm⟩⟩
  · by_cases hk : seekPt j t ≤ j.points
    · by_cases hseek : 0 ≤ 64 + seekPt j t * j.header.width
      · rw [write_normal_eval j f t V hint hep hro2 hk hseek] at hok
        simp only [Except.ok.injEq, Prod.mk.injEq] at hok
        obtain ⟨hj, hf⟩ := hok
        subst hj
        exact ⟨hint, hro2, rfl, rfl, rfl, rfl,
          Or.inr ⟨hep, rfl, Or.inl ⟨hk, hseek, rfl, hf.symm⟩⟩⟩
      · rw [write_normal_negseek j f t V hint hep hk (not_le.mp hseek)] at hok
        exact absurd hok (by simp)
    · have hk2 : j.points < seekPt j t := not_le.mp hk
      by_cases hseek : 0 ≤ 64 + j.points * j.header.width
      · rw [write_gap_eval j f t V hint hep hro2 hk2 hseek] at hok
        simp only [Except.ok.injEq, Prod.mk.injEq] at hok
        obtain ⟨hj, hf⟩ := hok
        subst hj
        exact ⟨hint, hro2, rfl, rfl, rfl, rfl,
          Or.inr ⟨hep, rfl, Or.inr ⟨hk2, hseek, rfl, hf.symm⟩⟩⟩
      · rw [write_gap_negseek j f t V hint hep hk2 (not_le.mp hseek)] at hok
        exact absurd hok (by simp)

theorem sliceAt_append_skip (a b : List Nat) (k n : Nat) :
    sliceAt (a ++ b) (a.length + k) n = sliceAt b k n := by
  simp [sliceAt, List.drop_append]

theorem sliceAt_repNull (null tail : List Nat) :
    ∀ (d g : Nat), d < g →
      sliceAt (repNull g null ++ tail) (d * null.length) null.length
        = null := by
  intro d
  induction d with
  | zero =>
      intro g hg
      cases g with
      | zero => omega
      | succ g2 =>
          show sliceAt ((null ++ repNull g2 null) ++ tail) (0 * null.length)
            null.length = null
          rw [List.append_assoc]
          simp only [Nat.zero_mul, sliceAt, List.drop_zero]
          exact List.take_left null _
  | succ d ih =>
      intro g hg
      cases g with
      | zero => omega
      | succ g2 =>
          show sliceAt ((null ++ repNull g2 null) ++ tail)
            ((d + 1) * null.length) null.length = null
          rw [List.append_assoc,
            show (d + 1) * null.length = null.length + d * null.length from
              by ring,
            sliceAt_append_skip]
          exact ih g2 (by omega)

theorem int64LE_length (v : Int) : (int64LE v).length = 8 := by
  rw [int64LE]; exact encodeLE_length _ 8

theorem int32LE_length (v : Int) : (int32LE v).length = 4 := by
  rw [int32LE]; exact encodeLE_length _ 4

theorem meta_flatten_length (m : List Int) :
    ((m.map int64LE).flatten).length = 8 * m.length := by
  induction m with
  | nil => rfl
  | cons x rest ih => simp [int64LE_length, ih]; ring

theorem serializeHeader_length (h : FileHeader) :
    (serializeHeader h).length
      = h.magic.length + 28 + 8 * h.meta.length := by
  simp only [serializeHeader, List.length_append, int32LE_length,
    int64LE_length, meta_flatten_length]
  ring

/-- One write preserves the dense-layout size invariant (plus the
auxiliary facts needed to keep it inductive). -/
theorem write_size_step (j : FileJournal) (f : List Nat) (t : Int)
    (V : EncodedValues) (j2 : FileJournal) (f2 : List Nat)
    (hok : write j f t V = .ok (j2, f2))
    (hsize : (f.length : Int) = 64 + j.points * j.header.width)
    (hpts : 0 ≤ j.points) (hz : j.header.epoch = 0 → j.points = 0)
    (hw : 0 ≤ j.header.width)
    (henc : (V.enc.length : Int) = (V.len : Int) * j.header.width)
    (hnull : (j.factory.null.length : Int) = j.header.width)
    (ht : j.header.epoch = 0 → adjust t j.header.interval ≠ 0) :
    (f2.length : Int) = 64 + j2.points * j2.header.width ∧ 0 ≤ j2.points ∧
    (j2.header.epoch = 0 → j2.points = 0) ∧
    j2.header.width = j.header.width ∧
    j2.header.interval = j.header.interval ∧ j2.factory = j.factory := by
  obtain ⟨hint, hro, _, hfac, hwid, hitv, hcases⟩ :=
    write_ok_inv j f t V j2 f2 hok
  rcases hcases with ⟨hep0, hep2, hpts2, hf2⟩ | ⟨hep, hep2, hsub⟩
  · -- first write
    have hp0 := hz hep0
    refine ⟨?_, ?_, ?_, hwid, hitv, hfac⟩
    · have hfN : f.length = 64 := by
        have hf64 : (f.length : Int) = 64 := by rw [hsize, hp0]; ring
        exact_mod_cast hf64
      rw [hf2, overwriteAt_length, List.length_append, int64LE_length,
        hwid, hpts2, hp0, hfN,
        show 56 + (8 + V.enc.length) = 64 + V.enc.length from by omega,
        max_eq_right (Nat.le_add_right 64 _)]
      push_cast
      rw [henc]
      ring
    · rw [hpts2, hp0]
      positivity
    · intro h
      rw [hep2] at h
      exact absurd h (ht hep0)
  · rcases hsub with ⟨hk, hseekpos, hpts2, hf2⟩ | ⟨hk, hseekpos, hpts2, hf2⟩
    · -- normal write
      have hts : ((64 + seekPt j t * j.header.width).toNat : Int)
          = 64 + seekPt j t * j.header.width := Int.toNat_of_nonneg hseekpos
      refine ⟨?_, ?_, ?_, hwid, hitv, hfac⟩
      · rw [hf2, overwriteAt_length, hwid, hpts2, Nat.cast_max]
        push_cast
        rw [hts, henc, hsize]
        by_cases hc : (V.len : Int) < j.points - seekPt j t
        · rw [if_pos hc]
          have hle : seekPt j t + (V.len : Int) ≤ j.points := by omega
          have hmul : (seekPt j t + (V.len : Int)) * j.header.width
              ≤ j.points * j.header.width :=
            mul_le_mul_of_nonneg_right hle hw
          rw [add_mul] at hmul
          rw [max_eq_left (by omega :
            (64 : Int) + seekPt j t * j.header.width
                + (V.len : Int) * j.header.width
              ≤ 64 + j.points * j.header.width)]
          ring
        · rw [if_neg hc]
          have hle : j.points ≤ seekPt j t + (V.len : Int) := by omega
          have hmul : j.points * j.header.width
              ≤ (seekPt j t + (V.len : Int)) * j.header.width :=
            mul_le_mul_of_nonneg_right hle hw
          rw [add_mul] at hmul
          rw [max_eq_right (by omega :
            (64 : Int) + j.points * j.header.width
              ≤ 64 + seekPt j t * j.header.width
                + (V.len : Int) * j.header.width)]
          ring
      · rw [hpts2]
        by_cases hc : (V.len : Int) < j.points - seekPt j t
        · rw [if_pos hc]; omega
        · rw [if_neg hc]; omega
      · intro h
        rw [hep2] at h
        exact absurd h hep
    · -- gap write
      have hts : ((64 + j.points * j.header.width).toNat : Int)
          = 64 + j.points * j.header.width := Int.toNat_of_nonneg hseekpos
      have hg : (((seekPt j t - j.points).toNat : Int))
          = seekPt j t - j.points := Int.toNat_of_nonneg (by omega)
      refine ⟨?_, ?_, ?_, hwid, hitv, hfac⟩
      · rw [hf2, overwriteAt_length, List.length_append, repNull_length,
          hwid, hpts2, Nat.cast_max]
        push_cast
        rw [hts, hg, hnull, henc, hsize]
        have h1 : 0 ≤ (seekPt j t - j.points) * j.header.width :=
          mul_nonneg (by omega) hw
        have h2 : 0 ≤ (V.len : Int) * j.header.width :=
          mul_nonneg (Nat.cast_nonneg _) hw
        rw [max_eq_right (by omega :
          (64 : Int) + j.points * j.header.width
            ≤ 64 + j.points * j.header.width
              + ((seekPt j t - j.points) * j.header.width
                + (V.len : Int) * j.header.width))]
        ring
      · rw [hpts2]; omega
      · intro h
        rw [hep2] at h
        exact absurd h hep

/-- The dense-layout size invariant holds after any successful sequence
of writes starting from a state that satisfies it. -/
theorem runWrites_size (W : Int) (hW : 0 ≤ W) :
    ∀ (ops : List (Int × EncodedValues)) (j : FileJournal) (f : List Nat)
      (j2 : FileJournal) (f2 : List Nat),
      j.header.width = W →
      (j.factory.null.length : Int) = W →
      (f.length : Int) = 64 + j.points * W → 0 ≤ j.points →
      (j.header.epoch = 0 → j.points = 0) →
      (∀ p ∈ ops, ((p.2.enc.length : Int) = (p.2.len : Int) * W ∧
        adjust p.1 j.header.interval ≠ 0)) →
      runWrites j f ops = .ok (j2, f2) →
      ((f2.length : Int) = 64 + j2.points * W ∧ j2.header.width = W) := by
  intro ops
  induction ops with
  | nil =>
      intro j f j2 f2 hwid hnull hsize hpts hz hops hrun
      rw [runWrites] at hrun
      simp only [Except.ok.injEq, Prod.mk.injEq] at hrun
      obtain ⟨h1, h2⟩ := hrun
      rw [← h1, ← h2]
      exact ⟨hsize, hwid⟩
  | cons p rest ih =>
      intro j f j2 f2 hwid hnull hsize hpts hz hops hrun
      obtain ⟨t, v⟩ := p
      rw [runWrites] at hrun
      cases hw0 : write j f t v with
      | error e => rw [hw0] at hrun; exact absurd hrun (by simp)
      | ok q =>
          obtain ⟨j3, f3⟩ := q
          rw [hw0] at hrun
          have hop := hops (t, v) (by simp)
          obtain ⟨hsize3, hpts3, hz3, hwid3, hitv3, hfac3⟩ :=
            write_size_step j f t v j3 f3 hw0
              (by rw [hwid]; exact hsize) hpts hz (by rw [hwid]; exact hW)
              (by rw [hwid]; exact hop.1) (by rw [hwid]; exact hnull)
              (fun _ => hop.2)
          refine ih j3 f3 j2 f2 (hwid3.trans hwid)
            (by rw [hfac3]; exact hnull)
            (by rw [hwid3, hwid] at hsize3; exact hsize3) hpts3 hz3
            ?_ hrun
          intro q hq
          refine ⟨(hops q (by simp [hq])).1, ?_⟩
          rw [hitv3]
          exact (hops q (by simp [hq])).2

/-- Round trip of the header serialization (for a header with the real
magic, an explicit 4-entry metadata list, and fields in their Go integer
ranges). -/
theorem parseHeader_serializeHeader (ver tag w itv ep m0 m1 m2 m3 : Int)
    (hver : -(2 ^ 31) ≤ ver ∧ ver < 2 ^ 31)
    (htag : -(2 ^ 31) ≤ tag ∧ tag < 2 ^ 31)
    (hw : -(2 ^ 31) ≤ w ∧ w < 2 ^ 31)
    (hitv : -(2 ^ 63) ≤ itv ∧ itv < 2 ^ 63)
    (hep : -(2 ^ 63) ≤ ep ∧ ep < 2 ^ 63)
    (hm0 : -(2 ^ 63) ≤ m0 ∧ m0 < 2 ^ 63)
    (hm1 : -(2 ^ 63) ≤ m1 ∧ m1 < 2 ^ 63)
    (hm2 : -(2 ^ 63) ≤ m2 ∧ m2 < 2 ^ 63)
    (hm3 : -(2 ^ 63) ≤ m3 ∧ m3 < 2 ^ 63) :
    parseHeader (serializeHeader ⟨magicBytes, ver, tag, w, itv,
        [m0, m1, m2, m3], ep⟩)
      = ⟨magicBytes, ver, tag, w, itv, [m0, m1, m2, m3], ep⟩ := by
  have h1 : parseHeader (serializeHeader ⟨magicBytes, ver, tag, w, itv,
        [m0, m1, m2, m3], ep⟩)
      = ⟨magicBytes, decodeInt32 (int32LE ver), decodeInt32 (int32LE tag),
        decodeInt32 (int32LE w), decodeInt64 (int64LE itv),
        [decodeInt64 (int64LE m0), decodeInt64 (int64LE m1),
          decodeInt64 (int64LE m2), decodeInt64 (int64LE m3)],
        decodeInt64 (int64LE ep)⟩ := rfl
  rw [h1, decodeInt32_int32LE ver hver.1 hver.2,
    decodeInt32_int32LE tag htag.1 htag.2, decodeInt32_int32LE w hw.1 hw.2,
    decodeInt64_int64LE itv hitv.1 hitv.2,
    decodeInt64_int64LE ep hep.1 hep.2, decodeInt64_int64LE m0 hm0.1 hm0.2,
    decodeInt64_int64LE m1 hm1.1 hm1.2, decodeInt64_int64LE m2 hm2.1 hm2.2,
    decodeInt64_int64LE m3 hm3.1 hm3.2]

/-- `Open` applied to a freshly serialized header (64-byte file, no
samples): it succeeds and reproduces the header. -/
theorem openJournal_serializeHeader (tag w itv m0 m1 m2 m3 : Int)
    (ro : Bool) (hw1 : 0 < w) (hw2 : w < 2 ^ 31)
    (htag : -(2 ^ 31) ≤ tag ∧ tag < 2 ^ 31)
    (hitv : -(2 ^ 63) ≤ itv ∧ itv < 2 ^ 63)
    (hm0 : -(2 ^ 63) ≤ m0 ∧ m0 < 2 ^ 63)
    (hm1 : -(2 ^ 63) ≤ m1 ∧ m1 < 2 ^ 63)
    (hm2 : -(2 ^ 63) ≤ m2 ∧ m2 < 2 ^ 63)
    (hm3 : -(2 ^ 63) ≤ m3 ∧ m3 < 2 ^ 63)
    (hreg : (getValueType tag w).isSome) :
    (openJournal (serializeHeader ⟨magicBytes, 0, tag, w, itv,
          [m0, m1, m2, m3], 0⟩) ro).map
        (fun j2 => (j2.header, j2.points, j2.readonly))
      = .ok (⟨magicBytes, 0, tag, w, itv, [m0, m1, m2, m3], 0⟩, 0, ro) := by
  obtain ⟨vt, hvt⟩ := Option.isSome_iff_exists.mp hreg
  have hlen : (serializeHeader ⟨magicBytes, 0, tag, w, itv,
      [m0, m1, m2, m3], 0⟩).length = 64 := by
    rw [serializeHeader_length]
    simp [magicBytes]
  have htake : (serializeHeader ⟨magicBytes, 0, tag, w, itv,
      [m0, m1, m2, m3], 0⟩).take 64
      = serializeHeader ⟨magicBytes, 0, tag, w, itv, [m0, m1, m2, m3], 0⟩ := by
    rw [← hlen]
    exact List.take_length _
  have hparse : parseHeader ((serializeHeader ⟨magicBytes, 0, tag, w, itv,
      [m0, m1, m2, m3], 0⟩).take 64)
      = ⟨magicBytes, 0, tag, w, itv, [m0, m1, m2, m3], 0⟩ := by
    rw [htake]
    exact parseHeader_serializeHeader 0 tag w itv 0 m0 m1 m2 m3
      (by norm_num) htag ⟨by omega, hw2⟩ hitv (by norm_num) hm0 hm1 hm2 hm3
  simp [openJournal, hlen, hparse, hvt, hw1.ne', Except.map]

/-!  Claim theorems. -/

set_option maxRecDepth 40000

/-- C10: `Last()` returns `epoch + interval * (point_count - 1)`
unconditionally, with no emptiness check; in particular on an empty
journal (`epoch = 0`, `points = 0`) it returns `-interval` rather than
failing. -/
theorem c10_last_formula :
    (∀ (h : FileHeader) (ro : Bool) (p : Int) (fac : ValueTypeModel),
      last ⟨h, ro, p, fac⟩ = h.epoch + h.interval * (p - 1)) ∧
    (∀ (h : FileHeader) (ro : Bool) (fac : ValueTypeModel),
      last ⟨{ h with epoch := 0 }, ro, 0, fac⟩ = -h.interval) := by
  constructor
  · intro h ro p fac
    rfl
  · intro h ro fac
    simp [last]

/-- C1 (code bug): on a journal with `epoch = 60`, a `Write` at
timestamp 0 (aligned slot index −1, before the epoch) does NOT fail
with the out-of-range error: the `seekPoint <= points` test catches the
negative slot, so the write succeeds, lands at offset 56 and overwrites
the on-disk epoch field with the sample bytes (the source's
"Time stamp is before journal epoch" arm is unreachable). -/
theorem c1_write_before_epoch_succeeds :
    (write j60 f60 0 (int64Values [5])).map
        (fun p => (p.1.header.epoch, p.1.points, p.2.length, sliceAt p.2 56 8))
      = .ok (60, 1, 72, int64LE 5) ∧
    int64LE 5 ≠ int64LE 60 := by
  constructor
  · decide
  · decide

/-- C8 counterexample: for the byte-blob codec (width 2),
`decode(encode([""]))` is `[]`, not `[""]`: the round trip fails for a
group whose length is not the codec width. -/
theorem c8_roundtrip_cex : byteDecode 2 (byteEncode [[]]) ≠ some [[]] := by
  rw [show byteEncode [[]] = [] from rfl, byteDecode]
  simp

/-- C8 (amended): `decode(encode(V)) = V` holds for the byte-blob codec
whenever the width is positive and every group of `V` has exactly that
width, and unconditionally (within the value range) for the float64 and
int64 codecs. -/
theorem c8_roundtrip :
    (∀ (w : Nat) (v : List (List Nat)), 0 < w → (∀ e ∈ v, e.length = w) →
      byteDecode w (byteEncode v) = some v) ∧
    (∀ v : List Nat, (∀ x ∈ v, x < 2 ^ 64) →
      float64Decode (float64Encode v) = v) ∧
    (∀ v : List Int, (∀ x ∈ v, -(2 ^ 63) ≤ x ∧ x < 2 ^ 63) →
      int64Decode (int64Encode v) = v) :=
  ⟨fun w v hw hv => byteDecode_byteEncode w hw v hv,
    fun v hv => float64Decode_float64Encode v hv,
    fun v hv => int64Decode_int64Encode v hv⟩

/-- C8 witness: the round trips at concrete inputs. -/
theorem c8_roundtrip_witness :
    byteDecode 2 (byteEncode [[65, 65], [66, 66]])
        = some [[65, 65], [66, 66]] ∧
    float64Decode (float64Encode [3, 4]) = [3, 4] ∧
    int64Decode (int64Encode [1, -1]) = [1, -1] :=
  ⟨c8_roundtrip.1 2 [[65, 65], [66, 66]] (by decide) (by decide),
    c8_roundtrip.2.1 [3, 4] (by decide),
    c8_roundtrip.2.2 [1, -1] (by decide)⟩

/-- C2: on a journal with `epoch = 0` (and no points), `Write(t, V)`
issues one positional write at offset `HEADER_SIZE − 8 = 56` whose
buffer is the 8-byte little-endian aligned timestamp `t'` immediately
followed by `encode(V)`; afterwards the in-memory epoch is `t'` and the
point count is `len(V)`. -/
theorem c2_first_write_layout (j : FileJournal) (f : List Nat) (t : Int)
    (V : EncodedValues) (hep : j.header.epoch = 0) (hpts : j.points = 0)
    (hro : j.readonly = false) (hint : j.header.interval ≠ 0) :
    (write j f t V).map (fun p => (p.1.header.epoch, p.1.points, p.2))
      = .ok (adjust t j.header.interval, (V.len : Int),
        overwriteAt f 56 (int64LE (adjust t j.header.interval) ++ V.enc)) := by
  rw [write_first_eval j f t V hint hep hro]
  simp [Except.map, hpts]

/-- C2 witness: the first write on a fresh int64 journal at t = 125. -/
theorem c2_first_write_layout_witness :
    jFresh.header.epoch = 0 ∧
    (write jFresh fFresh 125 (int64Values [9])).map
        (fun p => (p.1.header.epoch, p.1.points, p.2))
      = .ok (adjust 125 jFresh.header.interval, ((int64Values [9]).len : Int),
        overwriteAt fFresh 56
          (int64LE (adjust 125 jFresh.header.interval) ++
            (int64Values [9]).enc)) :=
  ⟨by decide, c2_first_write_layout jFresh fFresh 125 (int64Values [9])
    (by decide) (by decide) (by decide) (by decide)⟩

/-- C4 counterexample: on a read-only journal, a `Write` whose computed
offset is negative (timestamp far before the epoch) is rejected with the
"negative offset" error of the underlying positional write, not with a
read-only error — the journal code never consults its `readonly` flag. -/
theorem c4_readonly_write_cex :
    write j60ro f60 (-600) (int64Values [1])
        = .error (.os .negativeOffset) ∧
    Err.os .negativeOffset ≠ Err.os .notWritable := by
  constructor
  · decide
  · decide

/-- C4 (amended): every `Write` on a journal opened read-only fails with
an error — the rejection comes from the underlying positional write on
the non-writable descriptor (or its negative-offset check), not from a
dedicated ReadOnly error in the journal layer. -/
theorem c4_readonly_write_rejected (j : FileJournal) (f : List Nat)
    (t : Int) (V : EncodedValues) (hro : j.readonly = true) :
    (write j f t V).isOk = false :=
  write_readonly_fails j f t V hro

/-- C4 witness: a rejected write on a concrete read-only journal. -/
theorem c4_readonly_write_rejected_witness :
    j60ro.readonly = true ∧
    (write j60ro f60 120 (int64Values [1])).isOk = false :=
  ⟨by decide, c4_readonly_write_rejected j60ro f60 120 (int64Values [1])
    (by decide)⟩

/-- C3: a gap write (`epoch ≠ 0`, slot index `k > N` = point count)
prepends `k − N` null sentinels to `encode(V)`, writes the concatenated
buffer at byte offset `HEADER_SIZE + N·width`, sets the point count to
`k + len(V)`, and every gap slot `N ≤ i < k` of the resulting file holds
the codec's null sentinel. -/
theorem c3_gap_write (j : FileJournal) (f : List Nat) (t : Int)
    (V : EncodedValues) (k : Int) (hkdef : k = seekPt j t)
    (hint : j.header.interval ≠ 0) (hep : j.header.epoch ≠ 0)
    (hro : j.readonly = false) (hk : j.points < k) (hpts : 0 ≤ j.points)
    (hw : 0 < j.header.width)
    (hnull : (j.factory.null.length : Int) = j.header.width)
    (hfile : (f.length : Int) = 64 + j.points * j.header.width) :
    (write j f t V).map (fun p => (p.1.points, p.2))
        = .ok (k + (V.len : Int),
          overwriteAt f (64 + j.points * j.header.width).toNat
            (repNull (k - j.points).toNat j.factory.null ++ V.enc)) ∧
    (∀ i : Int, j.points ≤ i → i < k →
      sliceAt (overwriteAt f (64 + j.points * j.header.width).toNat
          (repNull (k - j.points).toNat j.factory.null ++ V.enc))
        (64 + i * j.header.width).toNat j.header.width.toNat
        = j.factory.null) := by
  subst hkdef
  have hmul : 0 ≤ j.points * j.header.width := mul_nonneg hpts hw.le
  have hseek : 0 ≤ 64 + j.points * j.header.width := by omega
  have hseekNat : (64 + j.points * j.header.width).toNat = f.length := by
    omega
  constructor
  · rw [write_gap_eval j f t V hint hep hro hk hseek]
    simp only [Except.map, Except.ok.injEq, Prod.mk.injEq]
    exact ⟨by omega, trivial⟩
  · intro i hi1 hi2
    rw [hseekNat, overwriteAt_append]
    have hnullN : j.factory.null.length = j.header.width.toNat := by omega
    have hioff : (64 + i * j.header.width).toNat
        = f.length + (i - j.points).toNat * j.factory.null.length := by
      have hi0 : (((i - j.points).toNat : Int)) = i - j.points :=
        Int.toNat_of_nonneg (by omega)
      have heq : (64 + i * j.header.width)
          = ((f.length + (i - j.points).toNat * j.factory.null.length : Nat) :
              Int) := by
        push_cast
        rw [hi0, hnull, hfile]
        ring
      rw [heq]
      exact Int.toNat_natCast _
    rw [hioff, sliceAt_append_skip, ← hnullN]
    exact sliceAt_repNull j.factory.null V.enc (i - j.points).toNat
      (seekPt j t - j.points).toNat (by omega)

/-- C3 witness: a gap write at t = 300 (slot 4) on a one-point journal
with epoch 60; the slot-2 bytes of the result are the int64 null. -/
theorem c3_gap_write_witness :
    j60.points < 4 ∧
    (write j60 f60 300 (int64Values [5])).map (fun p => (p.1.points, p.2))
        = .ok (4 + ((int64Values [5]).len : Int),
          overwriteAt f60 (64 + j60.points * j60.header.width).toNat
            (repNull ((4 : Int) - j60.points).toNat j60.factory.null ++
              (int64Values [5]).enc)) ∧
    sliceAt (overwriteAt f60 (64 + j60.points * j60.header.width).toNat
        (repNull ((4 : Int) - j60.points).toNat j60.factory.null ++
          (int64Values [5]).enc))
      (64 + 2 * j60.header.width).toNat j60.header.width.toNat
      = j60.factory.null :=
  ⟨by decide,
    (c3_gap_write j60 f60 300 (int64Values [5]) 4 (by decide) (by decide)
      (by decide) (by decide) (by decide) (by decide) (by decide) (by decide)
      (by decide)).1,
    (c3_gap_write j60 f60 300 (int64Values [5]) 4 (by decide) (by decide)
      (by decide) (by decide) (by decide) (by decide) (by decide) (by decide)
      (by decide)).2 2 (by decide) (by decide)⟩

/-- C6 counterexample: after `Create` and two successful writes at
timestamp 0 (aligned timestamp 0, so the epoch stays 0 and the first
branch repeats), the file is 72 bytes but the point count is 2, so the
size is not `HEADER_SIZE + point_count · width = 80`. -/
theorem c6_dense_layout_cex :
    ((create 60 int64VT []).bind (fun p =>
        runWrites p.1 p.2 [(0, int64Values [1]), (0, int64Values [2])])).map
        (fun p => ((p.2.length : Int), p.1.points, p.1.header.width))
      = .ok (72, 2, 8) ∧
    ¬((72 : Int) = 64 + 2 * 8) := by
  constructor
  · decide
  · decide

/-- C6 (amended): for every sequence of successful writes after
`Create`, the on-disk size equals `HEADER_SIZE + point_count · width`,
provided the codec is well-formed (`len(null) = width ≥ 0`,
`len(encode V) = len(V) · width`) and no write has aligned timestamp 0
(the counterexample shows writes at aligned timestamp 0 break the
invariant). -/
theorem c6_dense_layout (i : Int) (fac : ValueTypeModel) (m : List Int)
    (ops : List (Int × EncodedValues)) (j0 : FileJournal) (f0 : List Nat)
    (j : FileJournal) (f : List Nat)
    (hc : create i fac m = .ok (j0, f0)) (hW : 0 ≤ fac.width)
    (hnull : (fac.null.length : Int) = fac.width)
    (hops : ∀ p ∈ ops, ((p.2.enc.length : Int) = (p.2.len : Int) * fac.width ∧
      adjust p.1 i ≠ 0))
    (hrun : runWrites j0 f0 ops = .ok (j, f)) :
    (f.length : Int) = 64 + j.points * j.header.width := by
  rw [create] at hc
  by_cases hm : m.length > 4
  · rw [if_pos hm] at hc
    exact absurd hc (by simp)
  rw [if_neg hm] at hc
  simp only [Except.ok.injEq, Prod.mk.injEq] at hc
  obtain ⟨hj0, hf0⟩ := hc
  have hres := runWrites_size fac.width hW ops j0 f0 j f
    (by rw [← hj0]) (by rw [← hj0]; exact hnull)
    (by
      rw [← hf0, serializeHeader_length, ← hj0]
      simp [List.length_take, magicBytes])
    (by rw [← hj0])
    (by rw [← hj0]; intro _; rfl)
    (by rw [← hj0]; exact hops)
    hrun
  rw [hres.2]
  exact hres.1

/-- C6 witness: the invariant at a concrete create-then-write run. -/
theorem c6_dense_layout_witness :
    (0 : Int) ≤ int64VT.width ∧
    (fC6.length : Int) = 64 + jC6.points * jC6.header.width :=
  ⟨by decide,
    c6_dense_layout 60 int64VT [] [(125, int64Values [9])] jFresh fFresh
      jC6 fC6 (by decide) (by decide) (by decide) (by decide) (by decide)⟩

/-- C7: after `create(p, i, C, M)` with at most 4 metadata values and
then `open(p)` on the written bytes, the reopened handle reports
`width = C.width`, `interval = i`, `meta = M` zero-padded to 4 entries,
`type tag = C.type`, and point count 0 (fields in their Go integer
ranges, `C`'s tag registered). -/
theorem c7_create_open (i : Int) (C : ValueTypeModel) (M : List Int)
    (hM : M.length ≤ 4)
    (hMr : ∀ x ∈ M, -(2 ^ 63) ≤ x ∧ x < 2 ^ 63)
    (hi : -(2 ^ 63) ≤ i ∧ i < 2 ^ 63)
    (hw1 : 0 < C.width) (hw2 : C.width < 2 ^ 31)
    (htag : -(2 ^ 31) ≤ C.typeTag ∧ C.typeTag < 2 ^ 31)
    (hreg : (getValueType C.typeTag C.width).isSome) :
    ((create i C M).bind (fun p => (openJournal p.2 false).map
        (fun j2 => (j2.header.width, j2.header.interval, j2.header.meta,
          j2.header.typeTag, j2.points))))
      = .ok (C.width, i, (M ++ List.replicate 4 0).take 4, C.typeTag, 0) := by
  have hpad : ∃ m0 m1 m2 m3 : Int,
      (M ++ List.replicate 4 0).take 4 = [m0, m1, m2, m3] ∧
      (-(2 ^ 63) ≤ m0 ∧ m0 < 2 ^ 63) ∧ (-(2 ^ 63) ≤ m1 ∧ m1 < 2 ^ 63) ∧
      (-(2 ^ 63) ≤ m2 ∧ m2 < 2 ^ 63) ∧ (-(2 ^ 63) ≤ m3 ∧ m3 < 2 ^ 63) := by
    rcases M with _ | ⟨a, _ | ⟨b, _ | ⟨c, _ | ⟨d, rest⟩⟩⟩⟩
    · exact ⟨0, 0, 0, 0, by simp [List.replicate], by norm_num⟩
    · exact ⟨a, 0, 0, 0, by simp [List.replicate], hMr a (by simp),
        by norm_num⟩
    · exact ⟨a, b, 0, 0, by simp [List.replicate], hMr a (by simp),
        hMr b (by simp), by norm_num⟩
    · exact ⟨a, b, c, 0, by simp [List.replicate], hMr a (by simp),
        hMr b (by simp), hMr c (by simp), by norm_num⟩
    · rcases rest with _ | ⟨e, rest2⟩
      · exact ⟨a, b, c, d, by simp [List.replicate], hMr a (by simp),
          hMr b (by simp), hMr c (by simp), hMr d (by simp)⟩
      · simp at hM
  obtain ⟨m0, m1, m2, m3, hpadEq, hb0, hb1, hb2, hb3⟩ := hpad
  have hm4 : ¬(M.length > 4) := not_lt.mpr hM
  rw [create, if_neg hm4]
  simp only [Except.bind]
  rw [hpadEq]
  have hmain := openJournal_serializeHeader C.typeTag C.width i m0 m1 m2 m3
    false hw1 hw2 htag hi hb0 hb1 hb2 hb3 hreg
  cases ho : openJournal (serializeHeader ⟨magicBytes, 0, C.typeTag, C.width,
      i, [m0, m1, m2, m3], 0⟩) false with
  | error e =>
      rw [ho] at hmain
      exact absurd hmain (by simp [Except.map])
  | ok j2 =>
      rw [ho] at hmain
      simp only [Except.map, Except.ok.injEq, Prod.mk.injEq] at hmain
      obtain ⟨hh, hp, _⟩ := hmain
      simp only [Except.map, Except.ok.injEq, Prod.mk.injEq]
      rw [hh, hp]
      simp

/-- C7 witness: create/open round trip for the int64 codec,
interval 60, metadata [1, 2]. -/
theorem c7_create_open_witness :
    ([1, 2] : List Int).length ≤ 4 ∧
    ((create 60 int64VT [1, 2]).bind (fun p => (openJournal p.2 false).map
        (fun j2 => (j2.header.width, j2.header.interval, j2.header.meta,
          j2.header.typeTag, j2.points))))
      = .ok (int64VT.width, 60, (([1, 2] : List Int) ++
          List.replicate 4 0).take 4, int64VT.typeTag, 0) :=
  ⟨by decide,
    c7_create_open 60 int64VT [1, 2] (by decide) (by decide) (by decide)
      (by decide) (by decide) (by decide) (by decide)⟩

/-- C9 counterexample: a 60-byte file whose first bytes are the valid
magic has `size − HEADER_SIZE = −4 < 0`, but `Open` fails while reading
the header (unexpected EOF), not with the corrupt-or-partial error that
the claim requires for a negative residue. -/
theorem c9_open_checks_cex :
    openJournal (magicBytes ++ List.replicate 56 0) false
        = .error .headerRead ∧
    Err.headerRead ≠ Err.corrupt := by
  constructor
  · decide
  · decide

/-- C9 (amended): a file shorter than 64 bytes fails the header read
(so a negative `size − HEADER_SIZE` never reaches the corrupt check);
with at least 64 bytes, a magic mismatch gives the not-a-journal error,
and (for a registered tag and nonzero width) a nonzero residue
`(size − HEADER_SIZE) mod width` gives the corrupt error, otherwise the
point count is `(size − HEADER_SIZE) / width`. -/
theorem c9_open_checks (file : List Nat) (ro : Bool) :
    (file.length < 64 → openJournal file ro = .error .headerRead) ∧
    (64 ≤ file.length →
      ((parseHeader (file.take 64)).magic ≠ magicBytes →
        openJournal file ro = .error .notAJournal) ∧
      (∀ vt, (parseHeader (file.take 64)).magic = magicBytes →
        getValueType (parseHeader (file.take 64)).typeTag
            (parseHeader (file.take 64)).width = some vt →
        (parseHeader (file.take 64)).width ≠ 0 →
        ((((file.length : Int) - 64).tmod
              (parseHeader (file.take 64)).width ≠ 0 →
            openJournal file ro = .error .corrupt) ∧
          (((file.length : Int) - 64).tmod
              (parseHeader (file.take 64)).width = 0 →
            (openJournal file ro).map (fun j2 => j2.points)
              = .ok (((file.length : Int) - 64).tdiv
                  (parseHeader (file.take 64)).width))))) := by
  refine ⟨?_, ?_⟩
  · intro hlen
    rw [openJournal, if_pos hlen]
  · intro hlen
    have hnotlt : ¬(file.length < 64) := not_lt.mpr hlen
    refine ⟨?_, ?_⟩
    · intro hmag
      simp [openJournal, hnotlt, hmag]
    · intro vt hmag hvt hw0
      refine ⟨?_, ?_⟩
      · intro hres
        simp [openJournal, hnotlt, hmag, hvt, hw0, hres]
      · intro hres
        simp [openJournal, hnotlt, hmag, hvt, hw0, hres, Except.map]

/-- C9 witness: the corrupt error on a 67-byte file (residue 3), and the
derived point count on the 72-byte one-sample file. -/
theorem c9_open_checks_witness :
    openJournal (serializeHeader hdr60 ++ [1, 2, 3]) false
        = .error .corrupt ∧
    (openJournal f60 false).map (fun j2 => j2.points)
      = .ok (((f60.length : Int) - 64).tdiv
          (parseHeader (f60.take 64)).width) :=
  ⟨(((c9_open_checks (serializeHeader hdr60 ++ [1, 2, 3]) false).2
      (by decide)).2 int64VT (by decide) (by decide) (by decide)).1
      (by decide),
    (((c9_open_checks f60 false).2 (by decide)).2 int64VT (by decide)
      (by decide) (by decide)).2 (by decide)⟩

/-- C5 counterexample: an empty first write (`Write(60, [])` on a fresh
journal) stamps the epoch to 60 while leaving the point count at 0,
breaking `epoch == 0 ⇔ point count == 0`. -/
theorem c5_zero_epoch_cex :
    ((create 60 int64VT []).bind
        (fun p => write p.1 p.2 60 (int64Values []))).map
        (fun p => (p.1.header.epoch, p.1.points))
      = .ok (60, 0) ∧
    ¬((60 : Int) = 0 ↔ (0 : Int) = 0) := by
  constructor
  · decide
  · decide

/-- C5 (amended): `epoch == 0 ⇔ point count == 0` holds after `Create`,
and is preserved by every successful `Write` provided that a first write
(one hitting `epoch == 0`) is non-empty and its aligned timestamp is
nonzero (the code violates the invariant for `Write(t, [])` and for
aligned timestamp 0 on an empty journal). -/
theorem c5_zero_epoch_invariant :
    (∀ (i : Int) (fac : ValueTypeModel) (m : List Int) (j : FileJournal)
        (f : List Nat), create i fac m = .ok (j, f) →
        (j.header.epoch = 0 ↔ j.points = 0)) ∧
    (∀ (j : FileJournal) (f : List Nat) (t : Int) (V : EncodedValues)
        (j2 : FileJournal) (f2 : List Nat),
        (j.header.epoch = 0 ↔ j.points = 0) → 0 ≤ j.points →
        (j.header.epoch = 0 → V.len ≠ 0 ∧ adjust t j.header.interval ≠ 0) →
        write j f t V = .ok (j2, f2) →
        (j2.header.epoch = 0 ↔ j2.points = 0)) := by
  constructor
  · intro i fac m j f hc
    rw [create] at hc
    by_cases hm : m.length > 4
    · rw [if_pos hm] at hc
      exact absurd hc (by simp)
    · rw [if_neg hm] at hc
      simp only [Except.ok.injEq, Prod.mk.injEq] at hc
      obtain ⟨hj, _⟩ := hc
      rw [← hj]
  · intro j f t V j2 f2 hinv hpts hz hok
    obtain ⟨hint, hro, _, _, _, _, hcases⟩ := write_ok_inv j f t V j2 f2 hok
    rcases hcases with ⟨hep0, hep2, hpts2, _⟩ | ⟨hep, hep2, hsub⟩
    · obtain ⟨hlen, ht⟩ := hz hep0
      have hp0 : j.points = 0 := hinv.mp hep0
      rw [hep2, hpts2, hp0]
      constructor
      · intro h
        exact absurd h ht
      · intro h
        exfalso
        omega
    · have hpne : j.points ≠ 0 := fun h => hep (hinv.mpr h)
      rw [hep2]
      constructor
      · intro h
        exact absurd h hep
      · intro h
        exfalso
        rcases hsub with ⟨hk, _, hpts2, _⟩ | ⟨hk, _, hpts2, _⟩
        · rw [hpts2] at h
          by_cases hc : (V.len : Int) < j.points - seekPt j t
          · rw [if_pos hc] at h
            omega
          · rw [if_neg hc] at h
            omega
        · rw [hpts2] at h
          omega

/-- C5 witness: the invariant is preserved by a normal write on a
concrete one-point journal. -/
theorem c5_zero_epoch_invariant_witness :
    (j60.header.epoch = 0 ↔ j60.points = 0) ∧
    (j60b.header.epoch = 0 ↔ j60b.points = 0) :=
  ⟨by decide, c5_zero_epoch_invariant.2 j60 f60 120 (int64Values [9])
    j60b f60b (by decide) (by decide) (by decide) (by decide)⟩

end Journal
